import Mathlib

/-!
Verification of the TeleLink link-extraction engine and persistence layer
(`telelink/link_extractor.py`, `telelink/db.py`, and the `has_link`
computation of `telelink/telegram_client.py`), shallowly embedded in Lean.

Python strings are modelled as Lean `String` / `List Char`; SQLite tables
as Lean lists of row structures; exceptions as `Option`.  The embedding
follows the source line by line; comments cite the Python construct being
modelled.
-/

namespace Telelink

/-! ### Python string primitives used by the source -/

/-- Python `str.lower()` restricted to the ASCII range (all inputs exercised
by this code base are ASCII; `Char.toLower` lower-cases exactly `A`–`Z`). -/
def pyLower (s : String) : String :=
  String.mk (s.toList.map Char.toLower)

/-- Model of `url.strip("/")`: drop every leading and trailing `'/'` character. -/
def pyStripSlashes (s : String) : String :=
  String.mk (((s.toList.dropWhile (· = '/')).reverse.dropWhile (· = '/')).reverse)

/-- Python slicing `text[a : a + n]` by code points (clamping at the ends). -/
def pySlice (s : String) (a n : Nat) : String :=
  String.mk ((s.toList.drop a).take n)

/-- Whether `sub` occurs as a contiguous sublist (Python `in` on strings). -/
def listContainsSub (sub : List Char) (cs : List Char) : Bool :=
  match cs with
  | [] => sub.isPrefixOf ([] : List Char)
  | _ :: rest => sub.isPrefixOf cs || listContainsSub sub rest

/-- Python `"www."`-occurrence removal: `netloc.replace("www.", "")` replaces
every non-overlapping occurrence, scanning left to right. -/
def removeWWW : List Char → List Char
  | 'w' :: 'w' :: 'w' :: '.' :: rest => removeWWW rest
  | c :: rest => c :: removeWWW rest
  | [] => []

/-! ### `urllib.parse.urlparse(url).netloc`

Model of CPython `urlsplit` (3.10 semantics) as far as the `netloc`
component is concerned: strip leading/trailing C0-control-or-space
characters, remove every tab/CR/LF, split off a well-formed scheme, then
take the authority after `//` up to the first `/`, `?` or `#`.  A mismatched
`[`/`]` pair raises `ValueError`, modelled as `none`.  (Per-version stdlib
extras — NFKC checks on non-ASCII authorities, bracketed-address
validation — are outside the ASCII fragment this program exercises and are
not modelled.) -/

/-- WHATWG C0-control-or-space predicate used by `urlsplit`'s initial strip. -/
def c0ControlOrSpace (c : Char) : Bool := c.toNat ≤ 0x20

/-- Characters in Python's `scheme_chars` (ASCII letters, digits, `+-.`). -/
def schemeChar (c : Char) : Bool :=
  c.isAlphanum || c = '+' || c = '-' || c = '.'

/-- Split off `scheme:` when the prefix before the first `:` is a valid
scheme (first char ASCII alpha, rest in `scheme_chars`); return what
follows, or the whole input when there is no valid scheme. -/
def splitSchemeRest (cs : List Char) : List Char :=
  match cs.findIdx? (· = ':') with
  | some i =>
      if 0 < i ∧ (cs.headD ' ').isAlpha ∧ ((cs.take i).drop 1).all schemeChar then
        cs.drop (i + 1)
      else cs
  | none => cs

/-- Model of `urlparse(url).netloc`; `none` models a raised `ValueError`. -/
def urlparse_netloc (url : String) : Option String :=
  let cs1 := ((url.toList.dropWhile c0ControlOrSpace).reverse.dropWhile
      c0ControlOrSpace).reverse
  let cs2 := cs1.filter (fun c => !(c = '\t' || c = '\r' || c = '\n'))
  match splitSchemeRest cs2 with
  | '/' :: '/' :: r =>
      let netloc := r.takeWhile (fun c => !(c = '/' || c = '?' || c = '#'))
      if netloc.contains '[' ≠ netloc.contains ']' then none
      else some (String.mk netloc)
  | _ => some ""

/-- Source `_extract_domain` of `link_extractor.py`: netloc with every `"www."` occurrence
removed; `""` when the netloc is falsy or `urlparse` raised. -/
def extract_domain (url : String) : String :=
  match urlparse_netloc url with
  | none => ""
  | some netloc => if netloc ≠ "" then String.mk (removeWWW netloc.toList) else ""

/-! ### `URL_REGEX` — `https?://[^\s<>"{}|\\^`[]'()]+`, case-insensitive -/

/-- Python `\s` (Unicode whitespace as matched by `re` on `str`). -/
def pyIsSpace (c : Char) : Bool :=
  c = ' ' || c = '\t' || c = '\n' || c = '\r' || c = '\x0b' || c = '\x0c' ||
  c = '\x1c' || c = '\x1d' || c = '\x1e' || c = '\x1f' || c = '\x85' ||
  c = '\xa0' || c = '\u1680' || (0x2000 ≤ c.toNat && c.toNat ≤ 0x200a) ||
  c = '\u2028' || c = '\u2029' || c = '\u202f' || c = '\u205f' || c = '\u3000'

/-- The negated character class of `URL_REGEX` (its `+` body). -/
def urlBodyChar (c : Char) : Bool :=
  !(pyIsSpace c || c = '<' || c = '>' || c = '"' || c = '\x7b' || c = '\x7d' ||
    c = '|' || c = '\\' || c = '^' || c = '\x60' || c = '[' || c = ']' ||
    c = '\x27' || c = '(' || c = ')')

/-- Attempt to match `URL_REGEX` anchored at the head of `cs`; on success
return the (greedy) match and the remainder of the input.  `s?` is tried
with `s` first and backtracks to the empty alternative, exactly as the
Python engine does. -/
def tryMatchAt (cs : List Char) : Option (List Char × List Char) :=
  match cs with
  | c1 :: c2 :: c3 :: c4 :: c5 :: c6 :: c7 :: c8 :: rest =>
      if c1.toLower = 'h' ∧ c2.toLower = 't' ∧ c3.toLower = 't' ∧
          c4.toLower = 'p' then
        if c5.toLower = 's' ∧ c6 = ':' ∧ c7 = '/' ∧ c8 = '/' then
          match rest.takeWhile urlBodyChar with
          | [] => none
          | b :: body =>
              some ([c1, c2, c3, c4, c5, c6, c7, c8] ++ (b :: body),
                rest.dropWhile urlBodyChar)
        else if c5 = ':' ∧ c6 = '/' ∧ c7 = '/' then
          match (c8 :: rest).takeWhile urlBodyChar with
          | [] => none
          | b :: body =>
              some ([c1, c2, c3, c4, c5, c6, c7] ++ (b :: body),
                (c8 :: rest).dropWhile urlBodyChar)
        else none
      else none
  | _ => none

/-- Model of `URL_REGEX.findall`: scan left to right, emitting each non-overlapping
match and resuming after it.  Structured with explicit fuel (one unit per
consumed character; each step consumes at least one character, so
`cs.length` units always suffice). -/
def findAllAux : Nat → List Char → List (List Char)
  | 0, _ => []
  | _ + 1, [] => []
  | fuel + 1, c :: rest =>
      match tryMatchAt (c :: rest) with
      | some (m, remaining) => m :: findAllAux fuel remaining
      | none => findAllAux fuel rest

/-- Model of `URL_REGEX.findall(text)` on a `String`. -/
def findAll (text : String) : List String :=
  (findAllAux text.toList.length text.toList).map String.mk

/-! ### Data model — Telethon message shapes seen by the extractor

Only the attributes the source reads are modelled.  Optional / possibly
missing attributes (`getattr(x, "…", None)`) become `Option`; Python
truthiness tests on strings become `≠ ""`. -/

/-- Telethon message entities: `MessageEntityTextUrl` carries a hidden
target URL, `MessageEntityUrl` marks a span of the text as a URL; every
other entity class is irrelevant to the extractor. -/
inductive Entity where
  | messageEntityTextUrl (offset length : Nat) (url : String)
  | messageEntityUrl (offset length : Nat)
  | otherEntity
deriving DecidableEq, Repr

/-- Inline-keyboard button: `getattr(button, "url", None)` and
`getattr(button, "text", "")`. -/
structure Button where
  url : Option String := none
  text : String := ""
deriving DecidableEq, Repr

/-- Link-preview object: `getattr(webpage, "url", None)`. -/
structure Webpage where
  url : Option String := none
deriving DecidableEq, Repr

/-- Message media: a `MessageMediaWebPage` (whose `webpage` attribute may be
absent) or any other media class. -/
inductive Media where
  | messageMediaWebPage (webpage : Option Webpage)
  | otherMedia
deriving DecidableEq, Repr

/-- Telethon raw message, restricted to the attributes read by
`extract_links` and by the `has_link` computation in
`TelethonWrapper.fetch_messages`: `entities` (with `None` and `[]`
identified, as `… or []` does), `reply_markup` as its rows of buttons,
`media`, plus `id`, `message` (`None` or text) and `date`. -/
structure RawMessage where
  id : Int := 0
  message : Option String := none
  date : Option String := none
  entities : List Entity := []
  reply_markup : Option (List (List Button)) := none
  media : Option Media := none
deriving DecidableEq, Repr

/-- The `message_dict` argument of `extract_links` (`.get` defaults shown
in the source are the field defaults here). -/
structure MessageDict where
  message_id : Int := 0
  text : String := ""
  date : Option String := none
  channel_name : String := ""
  forward_from : Option String := none
deriving DecidableEq, Repr

/-- Output of `extract_links` — the `LinkRecord` dataclass. -/
structure LinkRecord where
  url : String
  domain : String
  anchor_text : Option String := none
  source : String := ""
  message_id : Int := 0
  message_date : Option String := none
  channel_name : String := ""
  forward_from : Option String := none
deriving DecidableEq, Repr

/-! ### `extract_links` -/

/-- Source `_dedup_key`: `(message_id, url.strip("/").lower())`. -/
def dedup_key (message_id : Int) (url : String) : Int × String :=
  (message_id, pyLower (pyStripSlashes url))

/-- A pending `_add(url, source, anchor)` call: URL, `source` tag, anchor. -/
abbrev Candidate := String × String × Option String

/-- Method 1 — `MessageEntityTextUrl` entities, in entity order; the anchor
is `text[ent.offset : ent.offset + ent.length]`. -/
def method1 (text : String) (entities : List Entity) : List Candidate :=
  entities.filterMap fun e =>
    match e with
    | .messageEntityTextUrl off len u => some (u, "entity_texturl", some (pySlice text off len))
    | _ => none

/-- Method 2 — `MessageEntityUrl` entities: the URL is the annotated slice
of the text itself; no anchor. -/
def method2 (text : String) (entities : List Entity) : List Candidate :=
  entities.filterMap fun e =>
    match e with
    | .messageEntityUrl off len => some (pySlice text off len, "entity_url", none)
    | _ => none

/-- Method 3 — regex fallback over the full text. -/
def method3 (text : String) : List Candidate :=
  (findAll text).map fun u => (u, "regex", none)

/-- Method 4 — inline keyboard buttons, row by row; the `if btn_url:`
truthiness test skips `None` and `""`. -/
def method4 (markup : Option (List (List Button))) : List Candidate :=
  match markup with
  | none => []
  | some rows => rows.flatMap fun row =>
      row.filterMap fun b =>
        match b.url with
        | some u => if u ≠ "" then some (u, "button", some b.text) else none
        | none => none

/-- Method 5 — a `MessageMediaWebPage` preview whose webpage has a truthy
`url`. -/
def method5 (media : Option Media) : List Candidate :=
  match media with
  | some (.messageMediaWebPage (some wp)) =>
      match wp.url with
      | some u => if u ≠ "" then [(u, "webpage_preview", none)] else []
      | none => []
  | _ => []

/-- All `_add` calls issued by `extract_links`, in program order.  With
`raw_message = None`, entities default to `[]` and methods 4/5 are
skipped. -/
def candidates (md : MessageDict) (raw : Option RawMessage) : List Candidate :=
  let ents := match raw with | none => [] | some r => r.entities
  method1 md.text ents ++ method2 md.text ents ++ method3 md.text ++
    (match raw with | none => [] | some r => method4 r.reply_markup) ++
    (match raw with | none => [] | some r => method5 r.media)

/-- The `LinkRecord` that `_add` builds for one candidate. -/
def mkRecord (md : MessageDict) (c : Candidate) : LinkRecord :=
  { url := c.1
    domain := extract_domain c.1
    anchor_text := c.2.2
    source := c.2.1
    message_id := md.message_id
    message_date := md.date
    channel_name := md.channel_name
    forward_from := md.forward_from }

/-- One step of `_add`: skip when the dedup key is in `seen_keys`, else
record the key and append the new `LinkRecord`. -/
def addLink (md : MessageDict) (st : List (Int × String) × List LinkRecord)
    (c : Candidate) : List (Int × String) × List LinkRecord :=
  let key := dedup_key md.message_id c.1
  if key ∈ st.1 then st
  else (key :: st.1, st.2 ++ [mkRecord md c])

/-- Source `extract_links`: run the five methods in order through `_add`,
starting from a fresh `seen_keys` set and empty `results` list. -/
def extract_links (md : MessageDict) (raw : Option RawMessage) : List LinkRecord :=
  ((candidates md raw).foldl (addLink md) ([], [])).2

/-! ### The orchestrator's `has_link` flag (`telegram_client.fetch_messages`) -/

/-- Search for the case-sensitive pattern `https?://` (a match is exactly a
`"http://"` or `"https://"` substring). -/
def searchHttpScheme (t : String) : Bool :=
  listContainsSub "http://".toList t.toList || listContainsSub "https://".toList t.toList

/-- The per-message `has_link` computation of `fetch_messages`: URL-ish
entity, else button with a URL, else `MessageMediaWebPage` media (with no
look inside the webpage), else case-sensitive regex `https?://` on a truthy
`msg.message`. -/
def fetch_has_link (m : RawMessage) : Bool :=
  if m.entities.any (fun e =>
      match e with
      | .messageEntityTextUrl _ _ _ => true
      | .messageEntityUrl _ _ => true
      | .otherEntity => false) then true
  else if (match m.reply_markup with
      | none => false
      | some rows => rows.any fun row => row.any fun b =>
          match b.url with
          | some u => u ≠ ""
          | none => false) then true
  else if (match m.media with
      | some (.messageMediaWebPage _) => true
      | _ => false) then true
  else match m.message with
    | some t => if t ≠ "" then searchHttpScheme t else false
    | none => false

/-- The message dict yielded by `fetch_messages` for a raw message, as far
as the fields consumed by `extract_links` are concerned
(`text := msg.message or ""`). -/
def fetch_message_dict (channel_name : String) (forward_from : Option String)
    (m : RawMessage) : MessageDict :=
  { message_id := m.id
    text := m.message.getD ""
    date := m.date
    channel_name := channel_name
    forward_from := forward_from }

/-! ### Persistence layer (`telelink/db.py`)

SQLite tables are modelled as lists of row structures, in insertion order;
the `AUTOINCREMENT` id and the `datetime('now')` default columns are not
part of any query the source performs on behalf of the verified claims and
are omitted.  `ORDER BY` clauses (presentation order of query results) are
not modelled; the verified properties are order-independent. -/

/-- A row of the `messages` table (`has_link` stored as `0`/`1`). -/
structure MessageRow where
  message_id : Int
  channel_name : String
  sender_id : Option Int
  message_text : String
  message_date : String
  has_link : Nat
deriving DecidableEq, Repr

/-- A row of the `links` table. -/
structure LinkRow where
  url : String
  domain : String
  anchor_text : Option String
  source : String
  message_id : Int
  message_date : String
  channel_name : String
  forward_from : Option String
deriving DecidableEq, Repr

/-- A row of the `channels` table. -/
structure ChannelRow where
  channel_name : String
  display_name : String := ""
  member_count : Int := 0
  last_scraped : String := ""
  message_count : Int := 0
  link_count : Int := 0
deriving DecidableEq, Repr

/-- The database state: the three tables. -/
structure DB where
  messages : List MessageRow := []
  links : List LinkRow := []
  channels : List ChannelRow := []
deriving DecidableEq, Repr

/-- A message dict as consumed by `save_messages` (the `.get` defaults of
the tuple-building comprehension are the field defaults). -/
structure MsgItem where
  message_id : Int
  channel_name : String
  sender_id : Option Int := none
  text : String := ""
  date : String := ""
  has_link : Bool := false
deriving DecidableEq, Repr

/-- The `messages` tuple built by `save_messages` for one dict. -/
def rowOfItem (m : MsgItem) : MessageRow :=
  { message_id := m.message_id
    channel_name := m.channel_name
    sender_id := m.sender_id
    message_text := m.text
    message_date := m.date
    has_link := if m.has_link then 1 else 0 }

/-- The `links` tuple built by `save_links` for one `LinkRecord`
(`str(lr.message_date) if lr.message_date else ""`). -/
def linkRowOfRecord (lr : LinkRecord) : LinkRow :=
  { url := lr.url
    domain := lr.domain
    anchor_text := lr.anchor_text
    source := lr.source
    message_id := lr.message_id
    message_date := match lr.message_date with
      | some d => if d ≠ "" then d else ""
      | none => ""
    channel_name := lr.channel_name
    forward_from := lr.forward_from }

/-- Source `save_messages`: `INSERT OR IGNORE` each row against the
`UNIQUE(channel_name, message_id)` constraint; the returned count
(`cur.rowcount`) is the number of rows actually inserted. -/
def save_messages (db : DB) (batch : List MsgItem) : DB × Nat :=
  batch.foldl
    (fun st m =>
      let r := rowOfItem m
      if st.1.messages.any (fun x =>
          x.channel_name = r.channel_name ∧ x.message_id = r.message_id) then st
      else ({ st.1 with messages := st.1.messages ++ [r] }, st.2 + 1))
    (db, 0)

/-- Source `save_links`: `INSERT OR IGNORE` against
`UNIQUE(channel_name, message_id, url)`; returns the number of rows
actually inserted. -/
def save_links (db : DB) (batch : List LinkRecord) : DB × Nat :=
  batch.foldl
    (fun st lr =>
      let r := linkRowOfRecord lr
      if st.1.links.any (fun x =>
          x.channel_name = r.channel_name ∧ x.message_id = r.message_id ∧
            x.url = r.url) then st
      else ({ st.1 with links := st.1.links ++ [r] }, st.2 + 1))
    (db, 0)

/-- SQLite `LIKE` (default ASCII-case-insensitive collation), with `%` and
`_` wildcards.  Fuel-structured: each step shortens pattern-plus-string, so
`p.length + s.length + 1` units always suffice. -/
def likeMatchAux : Nat → List Char → List Char → Bool
  | 0, _, _ => false
  | _ + 1, [], [] => true
  | _ + 1, [], _ :: _ => false
  | fuel + 1, '%' :: prest, s =>
      likeMatchAux fuel prest s ||
        (match s with
         | [] => false
         | _ :: srest => likeMatchAux fuel ('%' :: prest) srest)
  | fuel + 1, '_' :: prest, s =>
      (match s with
       | [] => false
       | _ :: srest => likeMatchAux fuel prest srest)
  | fuel + 1, c :: prest, s =>
      match s with
      | [] => false
      | d :: srest => (c.toLower = d.toLower) && likeMatchAux fuel prest srest

/-- Whether `s LIKE pat` holds. -/
def sqlLike (s pat : String) : Bool :=
  likeMatchAux (pat.toList.length + s.toList.length + 1) pat.toList s.toList

/-- Filter arguments of `get_messages`. -/
structure MsgFilter where
  channel : Option String := none
  keyword : Option String := none
  has_link : Option Bool := none

/-- The WHERE clause assembled by `get_messages` (a clause is added only
when its argument is truthy, and the channel clause also skips `"All"`). -/
def msgMatches (f : MsgFilter) (r : MessageRow) : Bool :=
  (match f.channel with
   | some c => if c ≠ "" ∧ c ≠ "All" then r.channel_name = c else true
   | none => true) &&
  (match f.keyword with
   | some k => if k ≠ "" then sqlLike r.message_text ("%" ++ k ++ "%") else true
   | none => true) &&
  (match f.has_link with
   | some true => r.has_link = 1
   | some false => r.has_link = 0
   | none => true)

/-- Source `get_messages` (result order not modelled). -/
def get_messages (db : DB) (f : MsgFilter) : List MessageRow :=
  db.messages.filter (msgMatches f)

/-- Filter arguments of `get_links`. -/
structure LinkFilter where
  channel : Option String := none
  domain : Option String := none
  search : Option String := none

/-- The WHERE clause assembled by `get_links`. -/
def linkMatches (f : LinkFilter) (r : LinkRow) : Bool :=
  (match f.channel with
   | some c => if c ≠ "" ∧ c ≠ "All" then r.channel_name = c else true
   | none => true) &&
  (match f.domain with
   | some d => if d ≠ "" ∧ d ≠ "All" then r.domain = d else true
   | none => true) &&
  (match f.search with
   | some s => if s ≠ "" then sqlLike r.url ("%" ++ s ++ "%") else true
   | none => true)

/-- Strict bytewise-lexicographic comparison of character lists (SQLite's
default BINARY collation on TEXT values; on code points this coincides with
UTF-8 byte order). -/
def charListLt : List Char → List Char → Bool
  | [], [] => false
  | [], _ :: _ => true
  | _ :: _, [] => false
  | a :: as, b :: bs =>
      if a.toNat < b.toNat then true
      else if b.toNat < a.toNat then false
      else charListLt as bs

/-- BINARY-collation `<` on strings. -/
def strLt (a b : String) : Bool := charListLt a.toList b.toList

/-- Row shape of the `unique_only` query of `get_links` (`url`, `domain`,
`anchor_text`, `source`, `channel_name`, `MIN(message_date)`,
`message_id`). -/
structure UniqueLinkRow where
  url : String
  domain : String
  anchor_text : Option String
  source : String
  channel_name : String
  message_date : String
  message_id : Int
deriving DecidableEq, Repr

/-- Distinct values in first-occurrence order (the `GROUP BY url` groups). -/
def firstDedupAux (seen : List String) : List String → List String
  | [] => []
  | x :: rest =>
      if x ∈ seen then firstDedupAux seen rest
      else x :: firstDedupAux (x :: seen) rest

/-- The row of a group whose `message_date` is minimal (SQLite `MIN` with
bare columns: the non-aggregated columns are taken from a row achieving
the minimum; ties keep the earlier row). -/
def pickMinRow (rows : List LinkRow) : Option LinkRow :=
  rows.foldl
    (fun acc r =>
      match acc with
      | none => some r
      | some b => if strLt r.message_date b.message_date then some r else some b)
    none

/-- Source `get_links` with `unique_only=True`: one output row per distinct
stored `url` among the filtered rows, carrying `MIN(message_date)` and the
bare columns of a minimising row (result order not modelled). -/
def get_links_unique (db : DB) (f : LinkFilter) : List UniqueLinkRow :=
  let rows := db.links.filter (linkMatches f)
  (firstDedupAux [] (rows.map (·.url))).filterMap fun u =>
    (pickMinRow (rows.filter (fun r => r.url = u))).map fun r =>
      { url := u
        domain := r.domain
        anchor_text := r.anchor_text
        source := r.source
        channel_name := r.channel_name
        message_date := r.message_date
        message_id := r.message_id }

/-- Source `get_links` with `unique_only=False` (result order not
modelled). -/
def get_links (db : DB) (f : LinkFilter) : List LinkRow :=
  db.links.filter (linkMatches f)

/-- Source `get_last_message_id`:
`SELECT COALESCE(MAX(message_id), 0) FROM messages WHERE channel_name = ?`. -/
def get_last_message_id (db : DB) (channel_name : String) : Int :=
  match (db.messages.filter (fun r => r.channel_name = channel_name)).map
      (·.message_id) with
  | [] => 0
  | x :: xs => xs.foldl max x

/-- Source `clear_channel`: `DELETE FROM t WHERE channel_name = ?` for each
of the three tables. -/
def clear_channel (db : DB) (channel_name : String) : DB :=
  { messages := db.messages.filter (fun r => r.channel_name ≠ channel_name)
    links := db.links.filter (fun r => r.channel_name ≠ channel_name)
    channels := db.channels.filter (fun r => r.channel_name ≠ channel_name) }

/-! ### Dedup analysis of `extract_links`

The fold over `_add` is characterised by a first-occurrence dedup of the
candidate list keyed by `_dedup_key`. -/

/-- The normalisation `_dedup_key` applies to a URL
(`url.strip("/").lower()`). -/
def normalized_url (u : String) : String := pyLower (pyStripSlashes u)

/-- Candidates kept by the `seen_keys` logic: first occurrence of each key. -/
def dedupKeyed (mid : Int) : List Candidate → List (Int × String) → List Candidate
  | [], _ => []
  | c :: rest, seen =>
      if dedup_key mid c.1 ∈ seen then dedupKeyed mid rest seen
      else c :: dedupKeyed mid rest (dedup_key mid c.1 :: seen)

/-- The `seen_keys` set after processing a candidate list. -/
def dedupSeen (mid : Int) : List Candidate → List (Int × String) → List (Int × String)
  | [], seen => seen
  | c :: rest, seen =>
      if dedup_key mid c.1 ∈ seen then dedupSeen mid rest seen
      else dedupSeen mid rest (dedup_key mid c.1 :: seen)

/-- Stated normalisation of the spec's dedup-key sentence (for comparison
with the source's `normalized_url`): the URL lower-cased with exactly one
trailing `'/'` stripped. -/
def normalized_url_claimed (u : String) : String :=
  let l := pyLower u
  if l.toList.getLast? = some '/' then String.mk l.toList.dropLast else l

/-- Stated domain derivation of the spec's domain sentence (for comparison
with the source's `extract_domain`): the authority component with one
leading literal `"www."` stripped; `""` when there is no parseable host. -/
def domain_claimed (u : String) : String :=
  match urlparse_netloc u with
  | none => ""
  | some n =>
      if n ≠ "" then
        (if "www.".toList.isPrefixOf n.toList then String.mk (n.toList.drop 4)
         else n)
      else ""

/-- Sequential driver calling `extract_links` once per message, in order
(the source allocates `seen_keys`/`results` afresh inside each call, so a
batch is exactly the per-message results in sequence). -/
def extractBatch : List (MessageDict × Option RawMessage) → List (List LinkRecord)
  | [] => []
  | p :: rest => extract_links p.1 p.2 :: extractBatch rest

/-- One `INSERT OR IGNORE` step on a bare table: skip when some existing
row matches the new row's uniqueness key, else append and count. -/
def insertIgnore {ρ : Type} (km : ρ → ρ → Bool) (st : List ρ × Nat) (r : ρ) :
    List ρ × Nat :=
  if st.1.any (km r) then st else (st.1 ++ [r], st.2 + 1)

/-- Uniqueness key of the `messages` table: `(channel_name, message_id)`. -/
def msgKeyMatch (r x : MessageRow) : Bool :=
  x.channel_name = r.channel_name ∧ x.message_id = r.message_id

/-- Uniqueness key of the `links` table:
`(channel_name, message_id, url)`. -/
def linkKeyMatch (r x : LinkRow) : Bool :=
  x.channel_name = r.channel_name ∧ x.message_id = r.message_id ∧ x.url = r.url

theorem dedup_key_eq_iff (mid : Int) (u v : String) :
    dedup_key mid u = dedup_key mid v ↔ normalized_url u = normalized_url v := by
  simp [dedup_key, normalized_url]

theorem foldl_addLink_eq (md : MessageDict) (l : List Candidate)
    (seen : List (Int × String)) (res : List LinkRecord) :
    l.foldl (addLink md) (seen, res) =
      (dedupSeen md.message_id l seen,
        res ++ (dedupKeyed md.message_id l seen).map (mkRecord md)) := by
  induction l generalizing seen res with
  | nil => simp [dedupSeen, dedupKeyed]
  | cons c rest ih =>
      by_cases h : dedup_key md.message_id c.1 ∈ seen
      · simp [List.foldl_cons, addLink, h, dedupSeen, dedupKeyed, ih]
      · simp [List.foldl_cons, addLink, h, dedupSeen, dedupKeyed, ih]

theorem extract_links_eq (md : MessageDict) (raw : Option RawMessage) :
    extract_links md raw =
      (dedupKeyed md.message_id (candidates md raw) []).map (mkRecord md) := by
  unfold extract_links
  rw [foldl_addLink_eq]
  simp

theorem mem_of_mem_dedupKeyed {mid : Int} {l : List Candidate}
    {seen : List (Int × String)} {c : Candidate}
    (h : c ∈ dedupKeyed mid l seen) : c ∈ l := by
  induction l generalizing seen with
  | nil => simp [dedupKeyed] at h
  | cons a rest ih =>
      rw [dedupKeyed] at h
      split at h
      · exact List.mem_cons_of_mem _ (ih h)
      · rcases List.mem_cons.mp h with h1 | h1
        · exact h1 ▸ List.mem_cons_self _ _
        · exact List.mem_cons_of_mem _ (ih h1)

theorem key_not_mem_seen_of_mem_dedupKeyed {mid : Int} {l : List Candidate}
    {seen : List (Int × String)} {c : Candidate}
    (h : c ∈ dedupKeyed mid l seen) : dedup_key mid c.1 ∉ seen := by
  induction l generalizing seen with
  | nil => simp [dedupKeyed] at h
  | cons a rest ih =>
      rw [dedupKeyed] at h
      split at h
      · exact ih h
      · rcases List.mem_cons.mp h with h1 | h1
        · subst h1; assumption
        · intro hmem
          exact ih h1 (List.mem_cons_of_mem _ hmem)

theorem find_of_mem_dedupKeyed {mid : Int} {l : List Candidate}
    {seen : List (Int × String)} {c : Candidate}
    (h : c ∈ dedupKeyed mid l seen) :
    l.find? (fun x => decide (dedup_key mid x.1 = dedup_key mid c.1)) = some c := by
  induction l generalizing seen with
  | nil => simp [dedupKeyed] at h
  | cons a rest ih =>
      rw [dedupKeyed] at h
      split at h
      · rename_i hmem
        have hne : dedup_key mid a.1 ≠ dedup_key mid c.1 := by
          intro heq
          exact key_not_mem_seen_of_mem_dedupKeyed h (heq ▸ hmem)
        rw [List.find?_cons_of_neg _ (by simp [hne])]
        exact ih h
      · rename_i hmem
        rcases List.mem_cons.mp h with h1 | h1
        · subst h1
          exact List.find?_cons_of_pos _ (by simp)
        · have hkc : dedup_key mid c.1 ∉ (dedup_key mid a.1 :: seen) :=
            key_not_mem_seen_of_mem_dedupKeyed h1
          have hne : dedup_key mid a.1 ≠ dedup_key mid c.1 := by
            intro heq
            exact hkc (heq ▸ List.mem_cons_self _ _)
          rw [List.find?_cons_of_neg _ (by simp [hne])]
          exact ih h1

theorem covers_dedupKeyed {mid : Int} {l : List Candidate} {c : Candidate}
    (h : c ∈ l) (seen : List (Int × String)) :
    dedup_key mid c.1 ∈ seen ∨
      ∃ c2 ∈ dedupKeyed mid l seen, dedup_key mid c2.1 = dedup_key mid c.1 := by
  induction l generalizing seen with
  | nil => simp at h
  | cons a rest ih =>
      rcases List.mem_cons.mp h with h1 | h1
      · subst h1
        by_cases hmem : dedup_key mid c.1 ∈ seen
        · exact Or.inl hmem
        · refine Or.inr ⟨c, ?_, rfl⟩
          rw [dedupKeyed, if_neg hmem]
          exact List.mem_cons_self _ _
      · by_cases hmem : dedup_key mid a.1 ∈ seen
        · rcases ih h1 seen with h2 | ⟨c2, hc2, hk⟩
          · exact Or.inl h2
          · refine Or.inr ⟨c2, ?_, hk⟩
            rw [dedupKeyed, if_pos hmem]
            exact hc2
        · rcases ih h1 (dedup_key mid a.1 :: seen) with h2 | ⟨c2, hc2, hk⟩
          · rcases List.mem_cons.mp h2 with h3 | h3
            · refine Or.inr ⟨a, ?_, h3.symm⟩
              rw [dedupKeyed, if_neg hmem]
              exact List.mem_cons_self _ _
            · exact Or.inl h3
          · refine Or.inr ⟨c2, ?_, hk⟩
            rw [dedupKeyed, if_neg hmem]
            exact List.mem_cons_of_mem _ hc2

theorem keys_nodup_dedupKeyed (mid : Int) (l : List Candidate)
    (seen : List (Int × String)) :
    ((dedupKeyed mid l seen).map (fun c => dedup_key mid c.1)).Nodup := by
  induction l generalizing seen with
  | nil => simp [dedupKeyed]
  | cons a rest ih =>
      rw [dedupKeyed]
      split
      · exact ih _
      · simp only [List.map_cons, List.nodup_cons]
        refine ⟨?_, ih _⟩
        intro hmem
        rcases List.mem_map.mp hmem with ⟨c2, hc2, hk⟩
        have := key_not_mem_seen_of_mem_dedupKeyed hc2
        exact this (hk ▸ List.mem_cons_self _ _)

theorem mem_extract_iff {md : MessageDict} {raw : Option RawMessage}
    {r : LinkRecord} :
    r ∈ extract_links md raw ↔
      ∃ c ∈ dedupKeyed md.message_id (candidates md raw) [], r = mkRecord md c := by
  rw [extract_links_eq]
  constructor
  · intro h
    rcases List.mem_map.mp h with ⟨c, hc, he⟩
    exact ⟨c, hc, he.symm⟩
  · rintro ⟨c, hc, rfl⟩
    exact List.mem_map.mpr ⟨c, hc, rfl⟩

/-- Every returned record is built verbatim (fields included) from some
candidate issued by one of the five methods. -/
theorem extract_provenance {md : MessageDict} {raw : Option RawMessage}
    {r : LinkRecord} (h : r ∈ extract_links md raw) :
    ∃ c ∈ candidates md raw,
      r.url = c.1 ∧ r.source = c.2.1 ∧ r.anchor_text = c.2.2 ∧
      r.domain = extract_domain c.1 ∧ r.message_id = md.message_id ∧
      r.message_date = md.date ∧ r.channel_name = md.channel_name ∧
      r.forward_from = md.forward_from := by
  rcases mem_extract_iff.mp h with ⟨c, hc, rfl⟩
  exact ⟨c, mem_of_mem_dedupKeyed hc, rfl, rfl, rfl, rfl, rfl, rfl, rfl, rfl⟩

/-- The dedup keys of the returned records are pairwise distinct. -/
theorem extract_keys_nodup (md : MessageDict) (raw : Option RawMessage) :
    ((extract_links md raw).map
      (fun r => dedup_key md.message_id r.url)).Nodup := by
  rw [extract_links_eq, List.map_map]
  have : ((fun r => dedup_key md.message_id r.url) ∘ mkRecord md) =
      fun c => dedup_key md.message_id c.1 := rfl
  rw [this]
  exact keys_nodup_dedupKeyed _ _ _

/-- Every candidate URL is represented in the output by a record with the
same dedup key. -/
theorem extract_covers {md : MessageDict} {raw : Option RawMessage}
    {c : Candidate} (h : c ∈ candidates md raw) :
    ∃ r ∈ extract_links md raw,
      dedup_key md.message_id r.url = dedup_key md.message_id c.1 := by
  rcases @covers_dedupKeyed md.message_id _ _ h [] with h1 | ⟨c2, hc2, hk⟩
  · simp at h1
  · refine ⟨mkRecord md c2, ?_, hk⟩
    rw [extract_links_eq]
    exact List.mem_map.mpr ⟨c2, hc2, rfl⟩

/-- Two returned records of the same message with the same dedup key are the
same record. -/
theorem extract_unique_key {md : MessageDict} {raw : Option RawMessage}
    {r1 r2 : LinkRecord} (h1 : r1 ∈ extract_links md raw)
    (h2 : r2 ∈ extract_links md raw)
    (hk : dedup_key md.message_id r1.url = dedup_key md.message_id r2.url) :
    r1 = r2 :=
  List.inj_on_of_nodup_map (extract_keys_nodup md raw) h1 h2 hk

/-- Every returned record corresponds to the first candidate carrying its
dedup key. -/
theorem extract_first {md : MessageDict} {raw : Option RawMessage}
    {r : LinkRecord} (h : r ∈ extract_links md raw) :
    ∃ c, (candidates md raw).find?
        (fun x => decide (dedup_key md.message_id x.1 =
          dedup_key md.message_id r.url)) = some c ∧ r = mkRecord md c := by
  rcases mem_extract_iff.mp h with ⟨c, hc, rfl⟩
  exact ⟨c, find_of_mem_dedupKeyed hc, rfl⟩

/-- Without a raw message the candidate list is the regex method alone. -/
theorem candidates_none (md : MessageDict) :
    candidates md none = (findAll md.text).map fun u => (u, "regex", none) := by
  simp [candidates, method1, method2, method3]

theorem find?_append_left {α : Type} (p : α → Bool) (l1 l2 : List α)
    (h : (l1.find? p).isSome) : (l1 ++ l2).find? p = l1.find? p := by
  induction l1 with
  | nil => simp at h
  | cons a rest ih =>
      by_cases hp : p a
      · rw [List.cons_append, List.find?_cons_of_pos _ hp,
          List.find?_cons_of_pos _ hp]
      · have h' := h
        rw [List.find?_cons_of_neg _ hp] at h'
        rw [List.cons_append, List.find?_cons_of_neg _ hp,
          List.find?_cons_of_neg _ hp]
        exact ih h'

/-! ### Claim theorems -/

/-- Claim C7: when the raw representation is absent, every record extracted
has source `"regex"`; and for the text
`"Check https://github.com/repo and https://youtube.com/watch?v=123"` with
no structured annotations, `extract_links` returns exactly two records,
both regex-sourced, with domains `github.com` and `youtube.com`, in that
left-to-right text order. -/
theorem C7_regex_fallback :
    (∀ (md : MessageDict) (r : LinkRecord),
      r ∈ extract_links md none → r.source = "regex") ∧
    ((extract_links
        { message_id := 1,
          text := "Check https://github.com/repo and https://youtube.com/watch?v=123",
          channel_name := "c" } none).map (fun r => (r.url, r.source, r.domain)) =
      [("https://github.com/repo", "regex", "github.com"),
       ("https://youtube.com/watch?v=123", "regex", "youtube.com")]) := by
  constructor
  · intro md r h
    rcases extract_provenance h with ⟨c, hc, _, hs, _⟩
    rw [candidates_none] at hc
    rcases List.mem_map.mp hc with ⟨u, _, rfl⟩
    exact hs
  · decide

/-- Witness for C7 at a concrete record of a concrete message. -/
theorem C7_regex_fallback_witness :
    ({ url := "https://a.bc", domain := "a.bc", anchor_text := none,
       source := "regex", message_id := 1, message_date := none,
       channel_name := "c", forward_from := none } : LinkRecord).source =
      "regex" :=
  C7_regex_fallback.1 { message_id := 1, text := "https://a.bc", channel_name := "c" }
    _ (by decide)

/-- Claim C9: `extract_links` is a pure function of its two arguments — a
sequential batch of calls equals the independent per-call results, with no
dedup state carried between calls — and the `url` field of every returned
record is a candidate URL verbatim (never the normalised dedup form), as
the concrete upper-case example shows. -/
theorem C9_extraction_purity :
    (∀ (inputs : List (MessageDict × Option RawMessage)),
      extractBatch inputs = inputs.map fun p => extract_links p.1 p.2) ∧
    (∀ (md : MessageDict) (raw : Option RawMessage) (r : LinkRecord),
      r ∈ extract_links md raw → ∃ c ∈ candidates md raw, r.url = c.1) ∧
    ((extract_links
        { message_id := 1, text := "https://EXAMPLE.com/", channel_name := "c" }
        none).map (fun r => r.url) =
      ["https://EXAMPLE.com/"] ∧
      normalized_url "https://EXAMPLE.com/" = "https://example.com") := by
  refine ⟨?_, ?_, by decide⟩
  · intro inputs
    induction inputs with
    | nil => rfl
    | cons p rest ih => simp [extractBatch, ih]
  · intro md raw r h
    rcases extract_provenance h with ⟨c, hc, hu, _⟩
    exact ⟨c, hc, hu⟩

/-- Witness for C9 at a concrete extracted record. -/
theorem C9_extraction_purity_witness :
    ∃ c ∈ candidates
        { message_id := 1, text := "https://a.bc", channel_name := "c" } none,
      ({ url := "https://a.bc", domain := "a.bc", anchor_text := none,
         source := "regex", message_id := 1, message_date := none,
         channel_name := "c", forward_from := none } : LinkRecord).url = c.1 :=
  C9_extraction_purity.2.1
    { message_id := 1, text := "https://a.bc", channel_name := "c" } none _
    (by decide)

/-- Claim C1 counterexample: in the message
`"https://example.com/ https://example.com//"` the two regex-extracted URLs
have different normal forms under the claimed normalisation (lower-case,
exactly one trailing `/` stripped), yet `extract_links` collapses them to a
single record — so URLs collapse in cases where the claimed normal forms
differ. -/
theorem C1_dedup_counterexample :
    ((candidates
        { message_id := 1,
          text := "https://example.com/ https://example.com//",
          channel_name := "c" } none).map (fun c => c.1) =
      ["https://example.com/", "https://example.com//"]) ∧
    normalized_url_claimed "https://example.com/" ≠
      normalized_url_claimed "https://example.com//" ∧
    (extract_links
        { message_id := 1,
          text := "https://example.com/ https://example.com//",
          channel_name := "c" } none).length = 1 := by
  refine ⟨by decide, by decide, by decide⟩

/-- Claim C1 as amended: two URLs produced by any methods for the same
message collapse to one `LinkRecord` exactly when they are equal after
stripping all leading and trailing `/` characters and lower-casing (the
source's `strip("/").lower()`); every candidate URL is represented by some
record under that normalisation; and a message whose text is the same URL
twice yields exactly one record. -/
theorem C1_dedup_amended :
    (∀ (md : MessageDict) (raw : Option RawMessage) (c1 c2 : Candidate)
        (r1 r2 : LinkRecord),
      c1 ∈ candidates md raw → c2 ∈ candidates md raw →
      r1 ∈ extract_links md raw → r2 ∈ extract_links md raw →
      normalized_url r1.url = normalized_url c1.1 →
      normalized_url r2.url = normalized_url c2.1 →
      (r1 = r2 ↔ normalized_url c1.1 = normalized_url c2.1)) ∧
    (∀ (md : MessageDict) (raw : Option RawMessage) (c : Candidate),
      c ∈ candidates md raw →
      ∃ r ∈ extract_links md raw, normalized_url r.url = normalized_url c.1) ∧
    ((extract_links
        { message_id := 1,
          text := "https://example.com https://example.com",
          channel_name := "c" } none).length = 1) := by
  refine ⟨?_, ?_, by decide⟩
  · intro md raw c1 c2 r1 r2 _ _ hr1 hr2 hn1 hn2
    constructor
    · intro he
      rw [← hn1, ← hn2, he]
    · intro he
      refine extract_unique_key hr1 hr2 ?_
      rw [dedup_key_eq_iff, hn1, hn2, he]
  · intro md raw c hc
    rcases extract_covers hc with ⟨r, hr, hk⟩
    exact ⟨r, hr, (dedup_key_eq_iff md.message_id _ _).mp hk⟩

/-- Witness for C1 as amended, at a message carrying the same URL in two
case/slash variants. -/
theorem C1_dedup_amended_witness :
    ({ url := "https://A.bc/", domain := "A.bc", anchor_text := none,
       source := "regex", message_id := 1, message_date := none,
       channel_name := "c", forward_from := none } : LinkRecord) =
      ({ url := "https://A.bc/", domain := "A.bc", anchor_text := none,
         source := "regex", message_id := 1, message_date := none,
         channel_name := "c", forward_from := none } : LinkRecord) ↔
      normalized_url "https://A.bc/" = normalized_url "https://a.bc" :=
  C1_dedup_amended.1
    { message_id := 1, text := "https://A.bc/ https://a.bc", channel_name := "c" }
    none ("https://A.bc/", "regex", none) ("https://a.bc", "regex", none) _ _
    (by decide) (by decide) (by decide) (by decide) (by decide) (by decide)

/-- Claim C2 (code bug): the orchestrator's `has_link` flag and
`extract_links` disagree.  For a message whose text is
`"HTTP://example.com"` with no annotations, `fetch_messages` computes
`has_link = False` (its fallback regex `https?://` is case-sensitive) while
`extract_links` (case-insensitive `URL_REGEX`) returns one record; for a
message whose media is a `MessageMediaWebPage` with no webpage payload,
`has_link = True` while `extract_links` returns nothing. -/
theorem C2_has_link_code_bug :
    (fetch_has_link { id := 1, message := some "HTTP://example.com" } = false ∧
      (extract_links
          (fetch_message_dict "c" none { id := 1, message := some "HTTP://example.com" })
          (some { id := 1, message := some "HTTP://example.com" })).length = 1) ∧
    (fetch_has_link { id := 2, media := some (.messageMediaWebPage none) } = true ∧
      extract_links
          (fetch_message_dict "c" none { id := 2, media := some (.messageMediaWebPage none) })
          (some { id := 2, media := some (.messageMediaWebPage none) }) = []) := by
  refine ⟨⟨by decide, by decide⟩, ⟨by decide, by decide⟩⟩

/-- Claim C3 counterexample: for `"https://www.www.example.com/x"` the code
removes every `"www."` occurrence from the authority (Python
`str.replace`), producing domain `"example.com"`, whereas the claimed
leading-`www.`-strip yields `"www.example.com"`. -/
theorem C3_domain_counterexample :
    ((extract_links
        { message_id := 1, text := "https://www.www.example.com/x",
          channel_name := "c" } none).map (fun r => r.domain) = ["example.com"]) ∧
    domain_claimed "https://www.www.example.com/x" = "www.example.com" ∧
    ("example.com" : String) ≠ "www.example.com" := by
  refine ⟨by decide, by decide, by decide⟩

/-- Claim C3 as amended: domain derivation is total — every returned record
carries `domain = extract_domain url`, which is the URL's authority with
every occurrence of `"www."` removed, the empty string when the authority
is absent/empty or parsing raises; and a malformed URL (here an invalid
IPv6 bracket) still yields a record with empty domain rather than aborting
extraction. -/
theorem C3_domain_amended :
    (∀ (md : MessageDict) (raw : Option RawMessage) (r : LinkRecord),
      r ∈ extract_links md raw →
        r.domain = extract_domain r.url ∧
        (urlparse_netloc r.url = none → r.domain = "") ∧
        (urlparse_netloc r.url = some "" → r.domain = "") ∧
        (∀ n, urlparse_netloc r.url = some n → n ≠ "" →
          r.domain = String.mk (removeWWW n.toList))) ∧
    (extract_domain "not a url" = "" ∧
      (extract_links { message_id := 1, text := "x", channel_name := "c" }
          (some { id := 1, reply_markup := some [[{ url := some "http://[::1" }]] })).map
        (fun r => (r.url, r.domain)) = [("http://[::1", "")]) := by
  refine ⟨?_, by decide, by decide⟩
  intro md raw r h
  rcases extract_provenance h with ⟨c, _, hu, _, _, hd, _⟩
  have hdu : r.domain = extract_domain r.url := by rw [hd, hu]
  refine ⟨hdu, ?_, ?_, ?_⟩
  · intro hn
    rw [hdu, extract_domain, hn]
  · intro hn
    rw [hdu, extract_domain, hn]
    simp
  · intro n hn hne
    rw [hdu, extract_domain, hn]
    simp [hne]

/-- Witness for C3 as amended at a concrete extracted record. -/
theorem C3_domain_amended_witness :
    ({ url := "https://a.bc", domain := "a.bc", anchor_text := none,
       source := "regex", message_id := 1, message_date := none,
       channel_name := "c", forward_from := none } : LinkRecord).domain =
      extract_domain "https://a.bc" ∧
    (urlparse_netloc "https://a.bc" = none →
      ({ url := "https://a.bc", domain := "a.bc", anchor_text := none,
         source := "regex", message_id := 1, message_date := none,
         channel_name := "c", forward_from := none } : LinkRecord).domain = "") := by
  have h := C3_domain_amended.1
    { message_id := 1, text := "https://a.bc", channel_name := "c" } none
    { url := "https://a.bc", domain := "a.bc", anchor_text := none,
      source := "regex", message_id := 1, message_date := none,
      channel_name := "c", forward_from := none }
    (by decide)
  exact ⟨h.1, h.2.1⟩

/-- Claim C4: methods run in a fixed order with first-seen-wins dedup, so
when a `MessageEntityTextUrl` annotation and any later method (e.g. the
regex fallback) produce the same normalised URL, the returned record's
source is `"entity_texturl"`, its `url` is the annotation's URL verbatim,
and its anchor text is the annotated text slice. -/
theorem C4_precedence :
    ∀ (md : MessageDict) (rm : RawMessage) (off len : Nat) (u : String)
      (r : LinkRecord),
      Entity.messageEntityTextUrl off len u ∈ rm.entities →
      r ∈ extract_links md (some rm) →
      normalized_url r.url = normalized_url u →
      r.source = "entity_texturl" ∧
        ∃ off2 len2 u2,
          Entity.messageEntityTextUrl off2 len2 u2 ∈ rm.entities ∧
          normalized_url u2 = normalized_url u ∧ r.url = u2 ∧
          r.anchor_text = some (pySlice md.text off2 len2) := by
  intro md rm off len u r hent hr hnorm
  rcases extract_first hr with ⟨c, hfind, hrec⟩
  have hcand : candidates md (some rm) =
      method1 md.text rm.entities ++
        (method2 md.text rm.entities ++ (method3 md.text ++
          (method4 rm.reply_markup ++ method5 rm.media))) := by
    simp [candidates, List.append_assoc]
  have hce : (u, "entity_texturl", some (pySlice md.text off len)) ∈
      method1 md.text rm.entities :=
    List.mem_filterMap.mpr ⟨_, hent, rfl⟩
  have hsome : ((method1 md.text rm.entities).find?
      (fun x => decide (dedup_key md.message_id x.1 =
        dedup_key md.message_id r.url))).isSome := by
    rw [List.find?_isSome]
    refine ⟨_, hce, ?_⟩
    simp only [decide_eq_true_eq]
    exact (dedup_key_eq_iff md.message_id u r.url).mpr hnorm.symm
  rw [hcand, find?_append_left _ _ _ hsome] at hfind
  have hcm : c ∈ method1 md.text rm.entities :=
    List.mem_of_find?_eq_some hfind
  have hpc := List.find?_some hfind
  rcases List.mem_filterMap.mp hcm with ⟨e2, he2, hge⟩
  cases e2 with
  | messageEntityTextUrl off2 len2 u2 =>
      simp only [Option.some.injEq] at hge
      subst hge
      simp only [decide_eq_true_eq] at hpc
      refine ⟨by rw [hrec]; rfl, off2, len2, u2, he2, ?_, by rw [hrec]; rfl, by rw [hrec]; rfl⟩
      have := (dedup_key_eq_iff md.message_id u2 r.url).mp hpc
      rw [this, hnorm]
  | messageEntityUrl off2 len2 => simp at hge
  | otherEntity => simp at hge

/-- Witness for C4: a message whose hidden entity URL and regex-matched
text URL normalise identically keeps the entity-sourced record. -/
theorem C4_precedence_witness :
    ({ url := "https://Example.com", domain := "Example.com",
       anchor_text := some "go", source := "entity_texturl", message_id := 5,
       message_date := none, channel_name := "c",
       forward_from := none } : LinkRecord).source = "entity_texturl" :=
  (C4_precedence
    { message_id := 5, text := "go https://example.com/ now", channel_name := "c" }
    { id := 5, entities := [.messageEntityTextUrl 0 2 "https://Example.com"] }
    0 2 "https://Example.com" _ (by decide) (by decide) (by decide)).1

theorem insertIgnore_mono {ρ : Type} (km : ρ → ρ → Bool) :
    ∀ (rows L : List ρ) (n : Nat) (x : ρ), x ∈ L →
      x ∈ (rows.foldl (insertIgnore km) (L, n)).1 := by
  intro rows
  induction rows with
  | nil => intro L n x hx; exact hx
  | cons r rest ih =>
      intro L n x hx
      rw [List.foldl_cons]
      by_cases h : L.any (km r)
      · rw [show insertIgnore km (L, n) r = (L, n) from if_pos h]
        exact ih L n x hx
      · rw [show insertIgnore km (L, n) r = (L ++ [r], n + 1) from if_neg h]
        exact ih (L ++ [r]) (n + 1) x (List.mem_append_left _ hx)

theorem insertIgnore_count {ρ : Type} (km : ρ → ρ → Bool) :
    ∀ (rows L : List ρ) (n : Nat),
      (rows.foldl (insertIgnore km) (L, n)).1.length + n =
        L.length + (rows.foldl (insertIgnore km) (L, n)).2 := by
  intro rows
  induction rows with
  | nil => intro L n; rfl
  | cons r rest ih =>
      intro L n
      rw [List.foldl_cons]
      by_cases h : L.any (km r)
      · rw [show insertIgnore km (L, n) r = (L, n) from if_pos h]
        exact ih L n
      · rw [show insertIgnore km (L, n) r = (L ++ [r], n + 1) from if_neg h]
        have := ih (L ++ [r]) (n + 1)
        simp only [List.length_append, List.length_cons, List.length_nil] at this ⊢
        omega

theorem insertIgnore_covers {ρ : Type} (km : ρ → ρ → Bool)
    (hrefl : ∀ r, km r r = true) :
    ∀ (rows L : List ρ) (n : Nat) (r : ρ), r ∈ rows →
      ∃ x ∈ (rows.foldl (insertIgnore km) (L, n)).1, km r x = true := by
  intro rows
  induction rows with
  | nil => intro L n r hr; simp at hr
  | cons a rest ih =>
      intro L n r hr
      rw [List.foldl_cons]
      rcases List.mem_cons.mp hr with h1 | h1
      · subst h1
        by_cases h : L.any (km r)
        · rw [show insertIgnore km (L, n) r = (L, n) from if_pos h]
          rcases List.any_eq_true.mp h with ⟨x, hx, hk⟩
          exact ⟨x, insertIgnore_mono km rest L n x hx, hk⟩
        · rw [show insertIgnore km (L, n) r = (L ++ [r], n + 1) from if_neg h]
          exact ⟨r, insertIgnore_mono km rest (L ++ [r]) (n + 1) r
            (List.mem_append_right _ (List.mem_singleton.mpr rfl)), hrefl r⟩
      · by_cases h : L.any (km a)
        · rw [show insertIgnore km (L, n) a = (L, n) from if_pos h]
          exact ih L n r h1
        · rw [show insertIgnore km (L, n) a = (L ++ [a], n + 1) from if_neg h]
          exact ih (L ++ [a]) (n + 1) r h1

theorem insertIgnore_idem {ρ : Type} (km : ρ → ρ → Bool) :
    ∀ (rows L : List ρ) (n : Nat), (∀ r ∈ rows, L.any (km r) = true) →
      rows.foldl (insertIgnore km) (L, n) = (L, n) := by
  intro rows
  induction rows with
  | nil => intro L n _; rfl
  | cons a rest ih =>
      intro L n h
      rw [List.foldl_cons,
        show insertIgnore km (L, n) a = (L, n) from
          if_pos (h a (List.mem_cons_self _ _))]
      exact ih L n fun r hr => h r (List.mem_cons_of_mem _ hr)

theorem save_messages_eq_foldl (batch : List MsgItem) :
    ∀ (db : DB) (n : Nat),
      batch.foldl
        (fun st m =>
          let r := rowOfItem m
          if st.1.messages.any (fun x =>
              x.channel_name = r.channel_name ∧ x.message_id = r.message_id)
          then st
          else ({ st.1 with messages := st.1.messages ++ [r] }, st.2 + 1))
        (db, n) =
      ({ db with messages :=
          ((batch.map rowOfItem).foldl (insertIgnore msgKeyMatch)
            (db.messages, n)).1 },
        ((batch.map rowOfItem).foldl (insertIgnore msgKeyMatch)
          (db.messages, n)).2) := by
  induction batch with
  | nil => intro db n; rfl
  | cons m rest ih =>
      intro db n
      rw [List.foldl_cons, List.map_cons, List.foldl_cons]
      by_cases h : db.messages.any (msgKeyMatch (rowOfItem m))
      · rw [show insertIgnore msgKeyMatch (db.messages, n) (rowOfItem m) =
            (db.messages, n) from if_pos h]
        rw [show (if db.messages.any (fun x =>
            x.channel_name = (rowOfItem m).channel_name ∧
              x.message_id = (rowOfItem m).message_id)
          then ((db, n) : DB × Nat)
          else ({ db with messages := db.messages ++ [rowOfItem m] }, n + 1)) =
            (db, n) from if_pos h]
        exact ih db n
      · rw [show insertIgnore msgKeyMatch (db.messages, n) (rowOfItem m) =
            (db.messages ++ [rowOfItem m], n + 1) from if_neg h]
        rw [show (if db.messages.any (fun x =>
            x.channel_name = (rowOfItem m).channel_name ∧
              x.message_id = (rowOfItem m).message_id)
          then ((db, n) : DB × Nat)
          else ({ db with messages := db.messages ++ [rowOfItem m] }, n + 1)) =
            ({ db with messages := db.messages ++ [rowOfItem m] }, n + 1)
          from if_neg h]
        exact ih { db with messages := db.messages ++ [rowOfItem m] } (n + 1)

theorem save_links_eq_foldl (batch : List LinkRecord) :
    ∀ (db : DB) (n : Nat),
      batch.foldl
        (fun st lr =>
          let r := linkRowOfRecord lr
          if st.1.links.any (fun x =>
              x.channel_name = r.channel_name ∧ x.message_id = r.message_id ∧
                x.url = r.url)
          then st
          else ({ st.1 with links := st.1.links ++ [r] }, st.2 + 1))
        (db, n) =
      ({ db with links :=
          ((batch.map linkRowOfRecord).foldl (insertIgnore linkKeyMatch)
            (db.links, n)).1 },
        ((batch.map linkRowOfRecord).foldl (insertIgnore linkKeyMatch)
          (db.links, n)).2) := by
  induction batch with
  | nil => intro db n; rfl
  | cons m rest ih =>
      intro db n
      rw [List.foldl_cons, List.map_cons, List.foldl_cons]
      by_cases h : db.links.any (linkKeyMatch (linkRowOfRecord m))
      · rw [show insertIgnore linkKeyMatch (db.links, n) (linkRowOfRecord m) =
            (db.links, n) from if_pos h]
        rw [show (if db.links.any (fun x =>
            x.channel_name = (linkRowOfRecord m).channel_name ∧
              x.message_id = (linkRowOfRecord m).message_id ∧
                x.url = (linkRowOfRecord m).url)
          then ((db, n) : DB × Nat)
          else ({ db with links := db.links ++ [linkRowOfRecord m] }, n + 1)) =
            (db, n) from if_pos h]
        exact ih db n
      · rw [show insertIgnore linkKeyMatch (db.links, n) (linkRowOfRecord m) =
            (db.links ++ [linkRowOfRecord m], n + 1) from if_neg h]
        rw [show (if db.links.any (fun x =>
            x.channel_name = (linkRowOfRecord m).channel_name ∧
              x.message_id = (linkRowOfRecord m).message_id ∧
                x.url = (linkRowOfRecord m).url)
          then ((db, n) : DB × Nat)
          else ({ db with links := db.links ++ [linkRowOfRecord m] }, n + 1)) =
            ({ db with links := db.links ++ [linkRowOfRecord m] }, n + 1)
          from if_neg h]
        exact ih { db with links := db.links ++ [linkRowOfRecord m] } (n + 1)

theorem save_messages_eq (db : DB) (batch : List MsgItem) :
    save_messages db batch =
      ({ db with messages :=
          ((batch.map rowOfItem).foldl (insertIgnore msgKeyMatch)
            (db.messages, 0)).1 },
        ((batch.map rowOfItem).foldl (insertIgnore msgKeyMatch)
          (db.messages, 0)).2) :=
  save_messages_eq_foldl batch db 0

theorem save_links_eq (db : DB) (batch : List LinkRecord) :
    save_links db batch =
      ({ db with links :=
          ((batch.map linkRowOfRecord).foldl (insertIgnore linkKeyMatch)
            (db.links, 0)).1 },
        ((batch.map linkRowOfRecord).foldl (insertIgnore linkKeyMatch)
          (db.links, 0)).2) :=
  save_links_eq_foldl batch db 0

/-- Claim C5: `save_messages` and `save_links` insert-or-ignore on their
uniqueness keys and return the number of rows actually inserted; saving the
same batch a second time returns 0, leaves the database unchanged, and so
leaves every `get_messages`/`get_links` result unchanged. -/
theorem C5_idempotent_ingestion :
    ∀ (db : DB) (batchM : List MsgItem) (batchL : List LinkRecord),
      save_messages (save_messages db batchM).1 batchM =
        ((save_messages db batchM).1, 0) ∧
      save_links (save_links db batchL).1 batchL =
        ((save_links db batchL).1, 0) ∧
      (save_messages db batchM).1.messages.length =
        db.messages.length + (save_messages db batchM).2 ∧
      (save_links db batchL).1.links.length =
        db.links.length + (save_links db batchL).2 ∧
      (∀ f, get_messages (save_messages (save_messages db batchM).1 batchM).1 f =
        get_messages (save_messages db batchM).1 f) ∧
      (∀ f, get_links (save_links (save_links db batchL).1 batchL).1 f =
        get_links (save_links db batchL).1 f) := by
  intro db bM bL
  have hallM : ∀ r ∈ bM.map rowOfItem,
      (((bM.map rowOfItem).foldl (insertIgnore msgKeyMatch)
        (db.messages, 0)).1.any (msgKeyMatch r)) = true := by
    intro r hr
    rcases insertIgnore_covers msgKeyMatch (fun x => by simp [msgKeyMatch])
      (bM.map rowOfItem) db.messages 0 r hr with ⟨x, hx, hk⟩
    exact List.any_eq_true.mpr ⟨x, hx, hk⟩
  have hallL : ∀ r ∈ bL.map linkRowOfRecord,
      (((bL.map linkRowOfRecord).foldl (insertIgnore linkKeyMatch)
        (db.links, 0)).1.any (linkKeyMatch r)) = true := by
    intro r hr
    rcases insertIgnore_covers linkKeyMatch (fun x => by simp [linkKeyMatch])
      (bL.map linkRowOfRecord) db.links 0 r hr with ⟨x, hx, hk⟩
    exact List.any_eq_true.mpr ⟨x, hx, hk⟩
  have hmsg : save_messages (save_messages db bM).1 bM =
      ((save_messages db bM).1, 0) := by
    have h1 : (save_messages db bM).1 =
        { db with messages :=
            ((bM.map rowOfItem).foldl (insertIgnore msgKeyMatch)
              (db.messages, 0)).1 } := by
      rw [save_messages_eq]
    rw [h1, save_messages_eq]
    rw [show ({ db with messages :=
        ((bM.map rowOfItem).foldl (insertIgnore msgKeyMatch)
          (db.messages, 0)).1 } : DB).messages =
        ((bM.map rowOfItem).foldl (insertIgnore msgKeyMatch)
          (db.messages, 0)).1 from rfl]
    rw [insertIgnore_idem msgKeyMatch _ _ _ hallM]
  have hlnk : save_links (save_links db bL).1 bL =
      ((save_links db bL).1, 0) := by
    have h1 : (save_links db bL).1 =
        { db with links :=
            ((bL.map linkRowOfRecord).foldl (insertIgnore linkKeyMatch)
              (db.links, 0)).1 } := by
      rw [save_links_eq]
    rw [h1, save_links_eq]
    rw [show ({ db with links :=
        ((bL.map linkRowOfRecord).foldl (insertIgnore linkKeyMatch)
          (db.links, 0)).1 } : DB).links =
        ((bL.map linkRowOfRecord).foldl (insertIgnore linkKeyMatch)
          (db.links, 0)).1 from rfl]
    rw [insertIgnore_idem linkKeyMatch _ _ _ hallL]
  refine ⟨hmsg, hlnk, ?_, ?_, ?_, ?_⟩
  · rw [save_messages_eq db bM]
    show ((bM.map rowOfItem).foldl (insertIgnore msgKeyMatch)
        (db.messages, 0)).1.length =
      db.messages.length +
        ((bM.map rowOfItem).foldl (insertIgnore msgKeyMatch) (db.messages, 0)).2
    have := insertIgnore_count msgKeyMatch (bM.map rowOfItem) db.messages 0
    omega
  · rw [save_links_eq db bL]
    show ((bL.map linkRowOfRecord).foldl (insertIgnore linkKeyMatch)
        (db.links, 0)).1.length =
      db.links.length +
        ((bL.map linkRowOfRecord).foldl (insertIgnore linkKeyMatch) (db.links, 0)).2
    have := insertIgnore_count linkKeyMatch (bL.map linkRowOfRecord) db.links 0
    omega
  · intro f; rw [hmsg]
  · intro f; rw [hlnk]

theorem foldl_max_le (xs : List Int) : ∀ (x : Int),
    x ≤ xs.foldl max x ∧ ∀ y ∈ xs, y ≤ xs.foldl max x := by
  induction xs with
  | nil => intro x; exact ⟨le_refl x, by simp⟩
  | cons a as ih =>
      intro x
      rw [List.foldl_cons]
      rcases ih (max x a) with ⟨h1, h2⟩
      refine ⟨le_trans (le_max_left x a) h1, ?_⟩
      intro y hy
      rcases List.mem_cons.mp hy with h3 | h3
      · rw [h3]
        exact le_trans (le_max_right x a) h1
      · exact h2 y h3

theorem foldl_max_mem (xs : List Int) : ∀ (x : Int),
    xs.foldl max x = x ∨ xs.foldl max x ∈ xs := by
  induction xs with
  | nil => intro x; exact Or.inl rfl
  | cons a as ih =>
      intro x
      rw [List.foldl_cons]
      rcases ih (max x a) with h1 | h1
      · rcases max_choice x a with h2 | h2
        · exact Or.inl (h1.trans h2)
        · exact Or.inr (List.mem_cons.mpr (Or.inl (h1.trans h2)))
      · exact Or.inr (List.mem_cons_of_mem _ h1)

/-- Claim C8: `get_last_message_id` returns the maximum stored `message_id`
of the channel, and 0 when the channel has no stored messages; after
storing ids 1, 2, 3 for channel `"c"` in an empty store it returns 3, and
returns 0 for an unknown channel. -/
theorem C8_resume_cursor :
    (∀ (db : DB) (c : String),
      (db.messages.filter (fun r => r.channel_name = c) = [] →
        get_last_message_id db c = 0) ∧
      (∀ r ∈ db.messages, r.channel_name = c →
        r.message_id ≤ get_last_message_id db c) ∧
      (db.messages.filter (fun r => r.channel_name = c) ≠ [] →
        ∃ r ∈ db.messages, r.channel_name = c ∧
          r.message_id = get_last_message_id db c)) ∧
    (get_last_message_id
        (save_messages { } [{ message_id := 1, channel_name := "c" },
          { message_id := 2, channel_name := "c" },
          { message_id := 3, channel_name := "c" }]).1 "c" = 3 ∧
      get_last_message_id
        (save_messages { } [{ message_id := 1, channel_name := "c" },
          { message_id := 2, channel_name := "c" },
          { message_id := 3, channel_name := "c" }]).1 "unknown" = 0) := by
  refine ⟨?_, by decide, by decide⟩
  intro db c
  refine ⟨?_, ?_, ?_⟩
  · intro h
    unfold get_last_message_id
    rw [h]
    rfl
  · intro r hr hc
    have hrf : r ∈ db.messages.filter (fun x => x.channel_name = c) :=
      List.mem_filter.mpr ⟨hr, by simp [hc]⟩
    cases hfl : db.messages.filter (fun x => x.channel_name = c) with
    | nil => rw [hfl] at hrf; simp at hrf
    | cons a as =>
        unfold get_last_message_id
        rw [hfl, List.map_cons]
        rw [hfl] at hrf
        rcases List.mem_cons.mp hrf with h1 | h1
        · subst h1
          exact (foldl_max_le (as.map (fun x => x.message_id)) r.message_id).1
        · exact (foldl_max_le (as.map (fun x => x.message_id)) a.message_id).2
            r.message_id (List.mem_map.mpr ⟨r, h1, rfl⟩)
  · intro hne
    cases hfl : db.messages.filter (fun x => x.channel_name = c) with
    | nil => exact absurd hfl hne
    | cons a as =>
        have hval : get_last_message_id db c =
            (as.map (fun x => x.message_id)).foldl max a.message_id := by
          unfold get_last_message_id
          rw [hfl, List.map_cons]
        rcases foldl_max_mem (as.map (fun x => x.message_id)) a.message_id
            with h1 | h1
        · have ha : a ∈ db.messages.filter (fun x => x.channel_name = c) := by
            rw [hfl]; exact List.mem_cons_self _ _
          rcases List.mem_filter.mp ha with ⟨ham, hac⟩
          exact ⟨a, ham, by simpa using hac, by rw [hval, h1]⟩
        · rcases List.mem_map.mp h1 with ⟨r, hras, hrid⟩
          have hrf : r ∈ db.messages.filter (fun x => x.channel_name = c) := by
            rw [hfl]; exact List.mem_cons_of_mem _ hras
          rcases List.mem_filter.mp hrf with ⟨hrm, hrc⟩
          exact ⟨r, hrm, by simpa using hrc, by rw [hval, ← hrid]⟩

/-- Witness for C8 at the empty store. -/
theorem C8_resume_cursor_witness : get_last_message_id { } "c" = 0 :=
  (C8_resume_cursor.1 { } "c").1 rfl

theorem filter_channel_comm (L : List MessageRow) (c c2 : String)
    (h : c2 ≠ c) :
    (L.filter (fun r => r.channel_name ≠ c)).filter
        (fun r => r.channel_name = c2) =
      L.filter (fun r => r.channel_name = c2) := by
  rw [List.filter_filter]
  refine List.filter_congr ?_
  intro a _
  by_cases h1 : a.channel_name = c2
  · have h2 : a.channel_name ≠ c := by rw [h1]; exact h
    simp [h1, h2, h]
  · simp [h1]

/-- Claim C10: `clear_channel c` deletes exactly the rows with
`channel_name = c` from each of the three tables, leaving rows of every
other channel intact — in particular the resume cursor of any other
channel is unchanged. -/
theorem C10_clear_channel_frame :
    ∀ (db : DB) (c : String),
      (∀ r : MessageRow, r ∈ (clear_channel db c).messages ↔
        (r ∈ db.messages ∧ r.channel_name ≠ c)) ∧
      (∀ r : LinkRow, r ∈ (clear_channel db c).links ↔
        (r ∈ db.links ∧ r.channel_name ≠ c)) ∧
      (∀ r : ChannelRow, r ∈ (clear_channel db c).channels ↔
        (r ∈ db.channels ∧ r.channel_name ≠ c)) ∧
      (∀ c2, c2 ≠ c →
        get_last_message_id (clear_channel db c) c2 =
          get_last_message_id db c2) := by
  intro db c
  refine ⟨?_, ?_, ?_, ?_⟩
  · intro r
    constructor
    · intro h
      rcases List.mem_filter.mp h with ⟨h1, h2⟩
      exact ⟨h1, by simpa using h2⟩
    · intro h
      exact List.mem_filter.mpr ⟨h.1, by simpa using h.2⟩
  · intro r
    constructor
    · intro h
      rcases List.mem_filter.mp h with ⟨h1, h2⟩
      exact ⟨h1, by simpa using h2⟩
    · intro h
      exact List.mem_filter.mpr ⟨h.1, by simpa using h.2⟩
  · intro r
    constructor
    · intro h
      rcases List.mem_filter.mp h with ⟨h1, h2⟩
      exact ⟨h1, by simpa using h2⟩
    · intro h
      exact List.mem_filter.mpr ⟨h.1, by simpa using h.2⟩
  · intro c2 h2
    unfold get_last_message_id
    rw [show (clear_channel db c).messages =
        db.messages.filter (fun r => r.channel_name ≠ c) from rfl,
      filter_channel_comm db.messages c c2 h2]

/-- Witness for C10: purging channel `"a"` leaves channel `"b"`'s cursor
intact. -/
theorem C10_clear_channel_frame_witness :
    get_last_message_id
        (clear_channel
          { messages :=
              [{ message_id := 7, channel_name := "b", sender_id := none,
                 message_text := "", message_date := "", has_link := 0 }] }
          "a") "b" =
      get_last_message_id
        { messages :=
            [{ message_id := 7, channel_name := "b", sender_id := none,
               message_text := "", message_date := "", has_link := 0 }] }
        "b" :=
  (C10_clear_channel_frame
    { messages :=
        [{ message_id := 7, channel_name := "b", sender_id := none,
           message_text := "", message_date := "", has_link := 0 }] }
    "a").2.2.2 "b" (by decide)

theorem charListLt_irrefl : ∀ l, charListLt l l = false := by
  intro l
  induction l with
  | nil => rfl
  | cons a as ih => simp [charListLt, ih]

theorem charListLt_trans :
    ∀ a b c, charListLt a b = true → charListLt b c = true →
      charListLt a c = true := by
  intro a
  induction a with
  | nil =>
      intro b c hab hbc
      cases b with
      | nil => simp [charListLt] at hab
      | cons y bs =>
          cases c with
          | nil => simp [charListLt] at hbc
          | cons z cs => rfl
  | cons x as ih =>
      intro b c hab hbc
      cases b with
      | nil => simp [charListLt] at hab
      | cons y bs =>
          cases c with
          | nil => simp [charListLt] at hbc
          | cons z cs =>
              by_cases hxy : x.toNat < y.toNat
              · by_cases hyz : y.toNat < z.toNat
                · rw [charListLt, if_pos (by omega)]
                · by_cases hzy : z.toNat < y.toNat
                  · rw [charListLt, if_neg hyz, if_pos hzy] at hbc
                    exact absurd hbc (by simp)
                  · rw [charListLt, if_pos (by omega)]
              · by_cases hyx : y.toNat < x.toNat
                · rw [charListLt, if_neg hxy, if_pos hyx] at hab
                  exact absurd hab (by simp)
                · rw [charListLt, if_neg hxy, if_neg hyx] at hab
                  by_cases hyz : y.toNat < z.toNat
                  · rw [charListLt, if_pos (by omega)]
                  · by_cases hzy : z.toNat < y.toNat
                    · rw [charListLt, if_neg hyz, if_pos hzy] at hbc
                      exact absurd hbc (by simp)
                    · rw [charListLt, if_neg hyz, if_neg hzy] at hbc
                      rw [charListLt, if_neg (by omega), if_neg (by omega)]
                      exact ih bs cs hab hbc

theorem charListLt_linear :
    ∀ a b c, charListLt a c = true →
      charListLt a b = true ∨ charListLt b c = true := by
  intro a
  induction a with
  | nil =>
      intro b c hac
      cases c with
      | nil => simp [charListLt] at hac
      | cons z cs =>
          cases b with
          | nil => exact Or.inr rfl
          | cons y bs => exact Or.inl rfl
  | cons x as ih =>
      intro b c hac
      cases c with
      | nil => simp [charListLt] at hac
      | cons z cs =>
          cases b with
          | nil => exact Or.inr rfl
          | cons y bs =>
              by_cases hxy : x.toNat < y.toNat
              · exact Or.inl (by rw [charListLt, if_pos hxy])
              · by_cases hyx : y.toNat < x.toNat
                · refine Or.inr ?_
                  by_cases hxz : x.toNat < z.toNat
                  · rw [charListLt, if_pos (by omega)]
                  · by_cases hzx : z.toNat < x.toNat
                    · rw [charListLt, if_neg hxz, if_pos hzx] at hac
                      exact absurd hac (by simp)
                    · rw [charListLt, if_pos (by omega)]
                · by_cases hxz : x.toNat < z.toNat
                  · exact Or.inr (by rw [charListLt, if_pos (by omega)])
                  · by_cases hzx : z.toNat < x.toNat
                    · rw [charListLt, if_neg hxz, if_pos hzx] at hac
                      exact absurd hac (by simp)
                    · rw [charListLt, if_neg hxz, if_neg hzx] at hac
                      rcases ih bs cs hac with h1 | h1
                      · exact Or.inl (by
                          rw [charListLt, if_neg hxy, if_neg hyx]
                          exact h1)
                      · exact Or.inr (by
                          rw [charListLt, if_neg (by omega), if_neg (by omega)]
                          exact h1)

theorem strLt_irrefl (a : String) : strLt a a = false :=
  charListLt_irrefl a.toList

theorem strLt_trans {a b c : String} (h1 : strLt a b = true)
    (h2 : strLt b c = true) : strLt a c = true :=
  charListLt_trans _ _ _ h1 h2

theorem strLt_linear (a b c : String) (h : strLt a c = true) :
    strLt a b = true ∨ strLt b c = true :=
  charListLt_linear _ _ _ h

theorem pickMin_go :
    ∀ (rest : List LinkRow) (b : LinkRow),
      ∃ m, rest.foldl
          (fun acc r =>
            match acc with
            | none => some r
            | some bb =>
                if strLt r.message_date bb.message_date then some r
                else some bb)
          (some b) = some m ∧
        (m = b ∨ m ∈ rest) ∧
        strLt b.message_date m.message_date = false ∧
        ∀ x ∈ rest, strLt x.message_date m.message_date = false := by
  intro rest
  induction rest with
  | nil =>
      intro b
      exact ⟨b, rfl, Or.inl rfl, strLt_irrefl _, by simp⟩
  | cons r rs ih =>
      intro b
      rw [List.foldl_cons]
      by_cases h : strLt r.message_date b.message_date = true
      · rw [show (match some b with
            | none => some r
            | some bb =>
                if strLt r.message_date bb.message_date then some r
                else some bb) = some r by simp [h]]
        rcases ih r with ⟨m, hm, hmem, hbr, hall⟩
        refine ⟨m, hm, ?_, ?_, ?_⟩
        · rcases hmem with h1 | h1
          · exact Or.inr (h1 ▸ List.mem_cons_self _ _)
          · exact Or.inr (List.mem_cons_of_mem _ h1)
        · by_contra hbm
          rw [Bool.not_eq_false] at hbm
          exact absurd (strLt_trans h hbm) (by rw [hbr]; simp)
        · intro x hx
          rcases List.mem_cons.mp hx with h1 | h1
          · rw [h1]; exact hbr
          · exact hall x h1
      · rw [show (match some b with
            | none => some r
            | some bb =>
                if strLt r.message_date bb.message_date then some r
                else some bb) = some b by
          simp only [Bool.not_eq_true] at h
          simp [h]]
        rcases ih b with ⟨m, hm, hmem, hbm, hall⟩
        refine ⟨m, hm, ?_, hbm, ?_⟩
        · rcases hmem with h1 | h1
          · exact Or.inl h1
          · exact Or.inr (List.mem_cons_of_mem _ h1)
        · intro x hx
          rcases List.mem_cons.mp hx with h1 | h1
          · subst h1
            by_contra hrm
            rw [Bool.not_eq_false] at hrm
            rcases strLt_linear _ b.message_date _ hrm with h2 | h2
            · rw [Bool.not_eq_true] at h; rw [h] at h2; exact absurd h2 (by simp)
            · rw [hbm] at h2; exact absurd h2 (by simp)
          · exact hall x h1

theorem pickMinRow_spec (rows : List LinkRow) (h : rows ≠ []) :
    ∃ m, pickMinRow rows = some m ∧ m ∈ rows ∧
      ∀ x ∈ rows, strLt x.message_date m.message_date = false := by
  cases rows with
  | nil => exact absurd rfl h
  | cons r rest =>
      rcases pickMin_go rest r with ⟨m, hm, hmem, hbr, hall⟩
      refine ⟨m, ?_, ?_, ?_⟩
      · rw [pickMinRow, List.foldl_cons]
        exact hm
      · rcases hmem with h1 | h1
        · exact h1 ▸ List.mem_cons_self _ _
        · exact List.mem_cons_of_mem _ h1
      · intro x hx
        rcases List.mem_cons.mp hx with h1 | h1
        · rw [h1]; exact hbr
        · exact hall x h1

theorem mem_of_mem_firstDedupAux :
    ∀ (l seen : List String) (x : String), x ∈ firstDedupAux seen l → x ∈ l := by
  intro l
  induction l with
  | nil => intro seen x h; simp [firstDedupAux] at h
  | cons a rest ih =>
      intro seen x h
      rw [firstDedupAux] at h
      split at h
      · exact List.mem_cons_of_mem _ (ih seen x h)
      · rcases List.mem_cons.mp h with h1 | h1
        · exact h1 ▸ List.mem_cons_self _ _
        · exact List.mem_cons_of_mem _ (ih _ x h1)

theorem not_mem_seen_of_mem_firstDedupAux :
    ∀ (l seen : List String) (x : String), x ∈ firstDedupAux seen l →
      x ∉ seen := by
  intro l
  induction l with
  | nil => intro seen x h; simp [firstDedupAux] at h
  | cons a rest ih =>
      intro seen x h
      rw [firstDedupAux] at h
      split at h
      · exact ih seen x h
      · rcases List.mem_cons.mp h with h1 | h1
        · subst h1; assumption
        · intro hmem
          exact ih _ x h1 (List.mem_cons_of_mem _ hmem)

theorem firstDedupAux_nodup :
    ∀ (l seen : List String), (firstDedupAux seen l).Nodup := by
  intro l
  induction l with
  | nil => intro seen; simp [firstDedupAux]
  | cons a rest ih =>
      intro seen
      rw [firstDedupAux]
      split
      · exact ih seen
      · rw [List.nodup_cons]
        refine ⟨?_, ih _⟩
        intro hmem
        exact not_mem_seen_of_mem_firstDedupAux _ _ _ hmem
          (List.mem_cons_self _ _)

theorem mem_firstDedupAux_of_mem :
    ∀ (l seen : List String) (x : String), x ∈ l →
      x ∈ seen ∨ x ∈ firstDedupAux seen l := by
  intro l
  induction l with
  | nil => intro seen x h; simp at h
  | cons a rest ih =>
      intro seen x h
      rcases List.mem_cons.mp h with h1 | h1
      · subst h1
        by_cases hmem : x ∈ seen
        · exact Or.inl hmem
        · refine Or.inr ?_
          rw [firstDedupAux, if_neg hmem]
          exact List.mem_cons_self _ _
      · by_cases hmem : a ∈ seen
        · rw [firstDedupAux, if_pos hmem]
          exact ih seen x h1
        · rw [firstDedupAux, if_neg hmem]
          rcases ih (a :: seen) x h1 with h2 | h2
          · rcases List.mem_cons.mp h2 with h3 | h3
            · exact Or.inr (h3 ▸ List.mem_cons_self _ _)
            · exact Or.inl h3
          · exact Or.inr (List.mem_cons_of_mem _ h2)

theorem buildRows_urls (rows : List LinkRow) :
    ∀ us : List String, (∀ u ∈ us, ∃ r ∈ rows, r.url = u) →
      ((us.filterMap fun u =>
          (pickMinRow (rows.filter (fun r => r.url = u))).map fun r =>
            ({ url := u, domain := r.domain, anchor_text := r.anchor_text,
               source := r.source, channel_name := r.channel_name,
               message_date := r.message_date,
               message_id := r.message_id } : UniqueLinkRow)).map
        (fun o => o.url)) = us := by
  intro us
  induction us with
  | nil => intro _; rfl
  | cons u rest ih =>
      intro h
      rcases h u (List.mem_cons_self _ _) with ⟨r0, hr0, hu0⟩
      have hne : rows.filter (fun r => r.url = u) ≠ [] := by
        intro hemp
        have hmem : r0 ∈ rows.filter (fun r => r.url = u) :=
          List.mem_filter.mpr ⟨hr0, by simp [hu0]⟩
        rw [hemp] at hmem
        simp at hmem
      rcases pickMinRow_spec _ hne with ⟨m, hm, _, _⟩
      have hhead : (pickMinRow (rows.filter (fun r => r.url = u))).map
          (fun r =>
            ({ url := u, domain := r.domain, anchor_text := r.anchor_text,
               source := r.source, channel_name := r.channel_name,
               message_date := r.message_date,
               message_id := r.message_id } : UniqueLinkRow)) =
          some
            ({ url := u, domain := m.domain, anchor_text := m.anchor_text,
               source := m.source, channel_name := m.channel_name,
               message_date := m.message_date,
               message_id := m.message_id } : UniqueLinkRow) := by
        rw [hm]
        rfl
      simp only [List.filterMap_cons, hhead, List.map_cons]
      rw [ih fun v hv => h v (List.mem_cons_of_mem _ hv)]

/-- Claim C6: with `uniqueOnly`, `get_links` returns exactly one row per
distinct stored url string among the filtered rows (raw string grouping:
URLs differing only by a trailing `/` stay distinct), and each output row
carries the minimum `message_date` of its group together with the bare
columns of a minimising stored row. -/
theorem C6_unique_links :
    (∀ (db : DB) (f : LinkFilter),
      ((get_links_unique db f).map (fun o => o.url)).Nodup ∧
      (∀ u, u ∈ (get_links_unique db f).map (fun o => o.url) ↔
        u ∈ (db.links.filter (linkMatches f)).map (fun r => r.url)) ∧
      (∀ o ∈ get_links_unique db f,
        (∃ r ∈ db.links.filter (linkMatches f), r.url = o.url ∧
          r.message_date = o.message_date ∧ r.message_id = o.message_id ∧
          r.domain = o.domain ∧ r.anchor_text = o.anchor_text ∧
          r.source = o.source ∧ r.channel_name = o.channel_name) ∧
        (∀ r ∈ db.links.filter (linkMatches f), r.url = o.url →
          strLt r.message_date o.message_date = false))) ∧
    ((get_links_unique
        { links :=
            [{ url := "https://x.com", domain := "x.com", anchor_text := none,
               source := "regex", message_id := 1,
               message_date := "2024-01-01", channel_name := "c",
               forward_from := none },
             { url := "https://x.com/", domain := "x.com", anchor_text := none,
               source := "regex", message_id := 2,
               message_date := "2024-01-02", channel_name := "c",
               forward_from := none }] } { }).map (fun o => o.url) =
      ["https://x.com", "https://x.com/"]) ∧
    (get_links_unique
        { links :=
            [{ url := "https://a.com", domain := "a.com", anchor_text := none,
               source := "regex", message_id := 1,
               message_date := "2024-01-02", channel_name := "c",
               forward_from := none },
             { url := "https://a.com", domain := "a.com", anchor_text := none,
               source := "regex", message_id := 2,
               message_date := "2024-01-01", channel_name := "c",
               forward_from := none }] } { } =
      [{ url := "https://a.com", domain := "a.com", anchor_text := none,
         source := "regex", channel_name := "c",
         message_date := "2024-01-01", message_id := 2 }]) := by
  refine ⟨?_, by decide, by decide⟩
  intro db f
  have hGLU : get_links_unique db f =
      (firstDedupAux []
        ((db.links.filter (linkMatches f)).map (fun r => r.url))).filterMap
        (fun u =>
          (pickMinRow
            ((db.links.filter (linkMatches f)).filter
              (fun r => r.url = u))).map
            (fun r =>
              ({ url := u, domain := r.domain, anchor_text := r.anchor_text,
                 source := r.source, channel_name := r.channel_name,
                 message_date := r.message_date,
                 message_id := r.message_id } : UniqueLinkRow))) := rfl
  have hcov : ∀ u ∈ firstDedupAux []
      ((db.links.filter (linkMatches f)).map (fun r => r.url)),
      ∃ r ∈ db.links.filter (linkMatches f), r.url = u := by
    intro u hu
    rcases List.mem_map.mp (mem_of_mem_firstDedupAux _ _ _ hu) with ⟨r, hr, hru⟩
    exact ⟨r, hr, hru⟩
  have hurls : (get_links_unique db f).map (fun o => o.url) =
      firstDedupAux []
        ((db.links.filter (linkMatches f)).map (fun r => r.url)) := by
    rw [hGLU]
    exact buildRows_urls _ _ hcov
  refine ⟨?_, ?_, ?_⟩
  · rw [hurls]
    exact firstDedupAux_nodup _ _
  · intro u
    rw [hurls]
    constructor
    · intro hu
      exact mem_of_mem_firstDedupAux _ _ _ hu
    · intro hu
      rcases mem_firstDedupAux_of_mem _ [] u hu with h1 | h1
      · simp at h1
      · exact h1
  · intro o ho
    rw [hGLU] at ho
    rcases List.mem_filterMap.mp ho with ⟨u, hu, hfu⟩
    rcases Option.map_eq_some'.mp hfu with ⟨m, hm, hbuild⟩
    have hne : (db.links.filter (linkMatches f)).filter
        (fun r => r.url = u) ≠ [] := by
      intro hemp
      rw [hemp] at hm
      exact Option.noConfusion hm
    rcases pickMinRow_spec _ hne with ⟨m2, hm2, hmem2, hall2⟩
    have hm2m : m2 = m := by
      rw [hm] at hm2
      exact Option.some.injEq _ _ ▸ hm2.symm ▸ rfl
    subst hm2m
    subst hbuild
    rcases List.mem_filter.mp hmem2 with ⟨hm2rows, hm2url⟩
    have hm2u : m2.url = u := by simpa using hm2url
    constructor
    · exact ⟨m2, hm2rows, by simp [hm2u], rfl, rfl, rfl, rfl, rfl, rfl⟩
    · intro r hr hru
      have hrg : r ∈ (db.links.filter (linkMatches f)).filter
          (fun x => x.url = u) := by
        refine List.mem_filter.mpr ⟨hr, ?_⟩
        simp only [decide_eq_true_eq]
        simpa using hru
      exact hall2 r hrg

/-- Witness for C6 at a concrete two-row store: the dated-later duplicate
row is not earlier than the returned minimum. -/
theorem C6_unique_links_witness :
    strLt "2024-01-02" "2024-01-01" = false :=
  ((C6_unique_links.1
      { links :=
          [{ url := "https://a.com", domain := "a.com", anchor_text := none,
             source := "regex", message_id := 1,
             message_date := "2024-01-02", channel_name := "c",
             forward_from := none },
           { url := "https://a.com", domain := "a.com", anchor_text := none,
             source := "regex", message_id := 2,
             message_date := "2024-01-01", channel_name := "c",
             forward_from := none }] } { }).2.2
    { url := "https://a.com", domain := "a.com", anchor_text := none,
      source := "regex", channel_name := "c",
      message_date := "2024-01-01", message_id := 2 } (by decide)).2
    { url := "https://a.com", domain := "a.com", anchor_text := none,
      source := "regex", message_id := 1, message_date := "2024-01-02",
      channel_name := "c", forward_from := none } (by decide) (by decide)

end Telelink
